import Mathlib

/-!
Verification development for the seoul-metro station-information viewer
(src/main.py, a single-file Streamlit dashboard).

The Python program is shallowly embedded here:
* strings are `String`/`List Char`, dictionaries are association lists,
  pandas rows are association lists from column name to value;
* Python code that can raise is embedded with `Option` (`none` = exception);
* the regular-expression substitution in `norm`, the `difflib` sequence
  matcher, and the pagination loop are embedded as executable functions;
  loops that are not structurally recursive use an explicit fuel argument
  that provably dominates the number of iterations, so every definition
  computes by kernel reduction.
-/

namespace SeoulMetro

/-! ## Dictionary access

Python `dict` lookup / `dict.get` / `pandas.Series.get`, embedded on
association lists (first binding wins; the maps built by the program have
unique keys). -/

def dictGet {β : Type} : List (String × β) → String → Option β
  | [], _ => none
  | (k, v) :: rest, q => if k = q then some v else dictGet rest q

/-! ## Name normalizer (src/main.py line 52-53)

`norm(name)` is `re.sub(r"\(.*?\)", "", str(name)).replace("역", "").strip()`.

* `re.sub(r"\(.*?\)", "", s)` scans left to right; at a literal `(` it
  deletes the shortest span up to the next `)`, provided no newline stands
  between them (`.` does not match a newline); scanning resumes after the
  deleted span, without rescanning earlier output.
* `.replace("역", "")` deletes every occurrence of the character 역.
* `.strip()` removes leading and trailing Unicode whitespace.
-/

/-- Characters stripped by Python `str.strip()` (the Unicode whitespace
characters recognised by CPython). -/
def pyIsSpace (c : Char) : Bool :=
  [' ', '\t', '\n', '\x0b', '\x0c', '\r', '\x1c', '\x1d', '\x1e', '\x1f',
   '\x85', '\xa0', ' ', ' ', ' ', ' ', ' ',
   '　'].contains c
  || (decide (' ' ≤ c) && decide (c ≤ ' '))

/-- `true` for every character other than `)`. -/
def notClose (d : Char) : Bool := decide (d ≠ ')')

/-- The suffix of `cs` just after the first `)` (the resumption point of
the regex scan once a span has been deleted). -/
def afterClose (cs : List Char) : List Char :=
  (cs.dropWhile notClose).drop 1

/-- The pattern `\(.*?\)` matches at a `(` followed by `cs` exactly when a
`)` occurs in `cs` and no newline stands before the first such `)`
(`.` does not match a newline, and `.*?` is the shortest span). -/
def cleanHead (cs : List Char) : Prop :=
  ')' ∈ cs ∧ '\n' ∉ cs.takeWhile notClose

instance (cs : List Char) : Decidable (cleanHead cs) := by
  unfold cleanHead; infer_instance

/-- One `re.sub(r"\(.*?\)", "", ·)` pass, with fuel.  When the pattern
matches at a `(`, the shortest span through the next `)` is deleted and
scanning resumes after it; otherwise the character is kept and scanning
moves on.  The fuel bounds the number of characters still to be scanned,
so `rpF l.length l` is the full pass. -/
def rpF : Nat → List Char → List Char
  | 0, l => l
  | _ + 1, [] => []
  | fuel + 1, c :: cs =>
    if c = '(' ∧ cleanHead cs
    then rpF fuel (afterClose cs)
    else c :: rpF fuel cs

def removeParens (l : List Char) : List Char := rpF l.length l

/-- Python `str.strip()` on a character list. -/
def pyStrip (l : List Char) : List Char :=
  ((l.dropWhile pyIsSpace).reverse.dropWhile pyIsSpace).reverse

/-- `norm` on a character list: delete parenthesised spans, delete every
역, strip whitespace. -/
def normList (l : List Char) : List Char :=
  pyStrip ((removeParens l).filter (fun c => decide (c ≠ '역')))

/-- `norm(name)` of src/main.py. -/
def norm (s : String) : String := ⟨normList s.data⟩

/-! ### Lemmas about the normalizer -/

/-- `l` contains an occurrence of the pattern `\(.*?\)`. -/
def CanMatch (l : List Char) : Prop :=
  ∃ u l₂, l = u ++ '(' :: l₂ ∧ cleanHead l₂

theorem afterClose_length_le (cs : List Char) :
    (afterClose cs).length ≤ cs.length := by
  calc ((cs.dropWhile notClose).drop 1).length
      ≤ (cs.dropWhile notClose).length := by
        rw [List.length_drop]; omega
    _ ≤ cs.length := (List.dropWhile_sublist notClose).length_le

theorem rpF_subset {fuel : Nat} {l : List Char} {x : Char}
    (h : x ∈ rpF fuel l) : x ∈ l := by
  induction fuel generalizing l with
  | zero => exact h
  | succ fuel ih =>
    cases l with
    | nil => exact h
    | cons c cs =>
      rw [rpF] at h
      split at h
      · have hx : x ∈ afterClose cs := ih h
        have h1 : x ∈ cs.dropWhile notClose :=
          List.mem_of_mem_drop hx
        exact List.mem_cons_of_mem c ((List.dropWhile_sublist notClose).subset h1)
      · rcases List.mem_cons.mp h with h | h
        · exact h ▸ List.mem_cons_self c cs
        · exact List.mem_cons_of_mem c (ih h)

theorem cleanHead_cons_of_ne {c : Char} {cs : List Char}
    (hc : c ≠ ')') (hn : c ≠ '\n') (h : cleanHead cs) : cleanHead (c :: cs) := by
  refine ⟨List.mem_cons_of_mem c h.1, ?_⟩
  rw [List.takeWhile_cons]
  have : notClose c = true := by simp [notClose, hc]
  simp only [this, if_true]
  intro hmem
  rcases List.mem_cons.mp hmem with h' | h'
  · exact hn h'.symm
  · exact h.2 h'

theorem cleanHead_cons_elim {c : Char} {cs : List Char}
    (hc : c ≠ ')') (_hn : c ≠ '\n') (h : cleanHead (c :: cs)) : cleanHead cs := by
  obtain ⟨h1, h2⟩ := h
  refine ⟨?_, ?_⟩
  · rcases List.mem_cons.mp h1 with h' | h'
    · exact absurd h'.symm hc
    · exact h'
  · intro hmem
    apply h2
    rw [List.takeWhile_cons]
    have : notClose c = true := by simp [notClose, hc]
    simp only [this, if_true]
    exact List.mem_cons_of_mem c hmem

/-- If the output of a `re.sub` pass still has a matchable head (a `)` with
no newline before it), so did the input at the same point. -/
theorem cleanHead_rpF {fuel : Nat} {l : List Char}
    (h : cleanHead (rpF fuel l)) : cleanHead l := by
  induction fuel generalizing l with
  | zero => exact h
  | succ fuel ih =>
    cases l with
    | nil => exact h
    | cons c cs =>
      rw [rpF] at h
      split at h
      · rename_i hcond
        obtain ⟨hc, hch⟩ := hcond
        subst hc
        exact cleanHead_cons_of_ne (by decide) (by decide) hch
      · by_cases hc : c = ')'
        · subst hc
          refine ⟨List.mem_cons_self _ _, ?_⟩
          rw [List.takeWhile_cons]
          have : notClose ')' = false := by simp [notClose]
          simp [this]
        · by_cases hn : c = '\n'
          · exfalso
            subst hn
            obtain ⟨_, h2⟩ := h
            apply h2
            rw [List.takeWhile_cons]
            have : notClose '\n' = true := by simp [notClose]
            simp [this]
          · exact cleanHead_cons_of_ne hc hn (ih (cleanHead_cons_elim hc hn h))

/-- The output of a full `re.sub(r"\(.*?\)", "", ·)` pass contains no
further occurrence of the pattern. -/
theorem not_canMatch_rpF {fuel : Nat} {l : List Char}
    (hf : l.length ≤ fuel) : ¬ CanMatch (rpF fuel l) := by
  induction fuel generalizing l with
  | zero =>
    have : l = [] := List.length_eq_zero.mp (Nat.le_zero.mp hf)
    subst this
    rintro ⟨u, l₂, habs, -⟩
    simp [rpF] at habs
  | succ fuel ih =>
    cases l with
    | nil =>
      rintro ⟨u, l₂, habs, -⟩
      simp [rpF] at habs
    | cons c cs =>
      have hcs : cs.length ≤ fuel := by
        simpa using Nat.succ_le_succ_iff.mp hf
      rw [rpF]
      split
      · exact ih (le_trans (afterClose_length_le cs) hcs)
      · rename_i hcond
        rintro ⟨u, l₂, heq, hch⟩
        cases u with
        | nil =>
          simp only [List.nil_append, List.cons.injEq] at heq
          exact hcond ⟨heq.1, cleanHead_rpF (heq.2 ▸ hch)⟩
        | cons d u' =>
          simp only [List.cons_append, List.cons.injEq] at heq
          exact ih hcs ⟨u', l₂, heq.2, hch⟩

/-- A string with no occurrence of the pattern is a fixed point of the
`re.sub` pass, whatever the fuel. -/
theorem rpF_eq_self_of_not_canMatch {fuel : Nat} {l : List Char}
    (h : ¬ CanMatch l) : rpF fuel l = l := by
  induction fuel generalizing l with
  | zero => rfl
  | succ fuel ih =>
    cases l with
    | nil => rfl
    | cons c cs =>
      rw [rpF]
      have hcond : ¬ (c = '(' ∧ cleanHead cs) := by
        rintro ⟨hc, hch⟩
        exact h ⟨[], cs, by simp [hc], hch⟩
      rw [if_neg hcond]
      have : ¬ CanMatch cs := by
        rintro ⟨u, l₂, heq, hch⟩
        exact h ⟨c :: u, l₂, by simp [heq], hch⟩
      rw [ih this]

theorem mem_takeWhile_filter (p : Char → Bool) {q : Char → Bool} {x : Char} :
    ∀ {l : List Char}, x ∈ l.takeWhile q → p x = true →
      x ∈ (l.filter p).takeWhile q
  | [], hx, _ => by simp [List.takeWhile] at hx
  | c :: cs, hx, hpx => by
    rw [List.takeWhile_cons] at hx
    by_cases hqc : q c = true
    · rw [if_pos hqc] at hx
      rcases List.mem_cons.mp hx with h | h
      · subst h
        rw [List.filter_cons, if_pos hpx, List.takeWhile_cons, if_pos hqc]
        exact List.mem_cons_self _ _
      · have ih := mem_takeWhile_filter p h hpx
        rw [List.filter_cons]
        by_cases hpc : p c = true
        · rw [if_pos hpc, List.takeWhile_cons, if_pos hqc]
          exact List.mem_cons_of_mem c ih
        · rw [if_neg hpc]
          exact ih
    · rw [if_neg hqc] at hx
      simp at hx

theorem canMatch_filter {p : Char → Bool} {l : List Char}
    (_hp1 : p ')' = true) (hp2 : p '\n' = true)
    (h : CanMatch (l.filter p)) : CanMatch l := by
  obtain ⟨u, l₂, heq, hch⟩ := h
  obtain ⟨l₁, l₂', hl, -, hf2⟩ := List.filter_eq_append_iff.mp heq
  obtain ⟨w, z, hl₂', -, -, hfz⟩ := List.filter_eq_cons_iff.mp hf2
  refine ⟨l₁ ++ w, z, ?_, ?_, ?_⟩
  · rw [hl, hl₂']
    simp
  · have : ')' ∈ l₂ := hch.1
    rw [← hfz] at this
    exact (List.filter_sublist z).subset this
  · intro hmem
    have := mem_takeWhile_filter p hmem hp2
    rw [hfz] at this
    exact hch.2 this

theorem takeWhile_append_of_mem_close {l₂ v : List Char} (h : ')' ∈ l₂) :
    (l₂ ++ v).takeWhile notClose = l₂.takeWhile notClose := by
  induction l₂ with
  | nil => simp at h
  | cons c t ih =>
    rw [List.cons_append, List.takeWhile_cons, List.takeWhile_cons]
    by_cases hc : notClose c = true
    · have hct : ')' ∈ t := by
        rcases List.mem_cons.mp h with h' | h'
        · exfalso
          simp only [notClose, decide_eq_true_eq] at hc
          exact hc h'.symm
        · exact h'
      rw [if_pos hc, if_pos hc, ih hct]
    · rw [if_neg hc, if_neg hc]

theorem canMatch_append {m : List Char} (u₀ v₀ : List Char)
    (h : CanMatch m) : CanMatch (u₀ ++ m ++ v₀) := by
  obtain ⟨u, l₂, heq, hch⟩ := h
  refine ⟨u₀ ++ u, l₂ ++ v₀, ?_, ?_, ?_⟩
  · rw [heq]
    simp
  · exact List.mem_append_left v₀ hch.1
  · rw [takeWhile_append_of_mem_close hch.1]
    exact hch.2

theorem pyStrip_decomp (l : List Char) :
    ∃ u v, l = u ++ pyStrip l ++ v := by
  refine ⟨l.takeWhile pyIsSpace,
    ((l.dropWhile pyIsSpace).reverse.takeWhile pyIsSpace).reverse, ?_⟩
  have h1 : l = l.takeWhile pyIsSpace ++ l.dropWhile pyIsSpace :=
    (List.takeWhile_append_dropWhile pyIsSpace l).symm
  have h2 : l.dropWhile pyIsSpace =
      pyStrip l ++ ((l.dropWhile pyIsSpace).reverse.takeWhile pyIsSpace).reverse := by
    have h3 : (l.dropWhile pyIsSpace).reverse =
        (l.dropWhile pyIsSpace).reverse.takeWhile pyIsSpace ++
        (l.dropWhile pyIsSpace).reverse.dropWhile pyIsSpace :=
      (List.takeWhile_append_dropWhile pyIsSpace _).symm
    calc l.dropWhile pyIsSpace
        = (l.dropWhile pyIsSpace).reverse.reverse := by rw [List.reverse_reverse]
      _ = ((l.dropWhile pyIsSpace).reverse.takeWhile pyIsSpace ++
            (l.dropWhile pyIsSpace).reverse.dropWhile pyIsSpace).reverse := by
          rw [← h3]
      _ = pyStrip l ++ ((l.dropWhile pyIsSpace).reverse.takeWhile pyIsSpace).reverse := by
          rw [List.reverse_append]
          rfl
  conv_lhs => rw [h1, h2]
  rw [List.append_assoc]

theorem mem_pyStrip {x : Char} {l : List Char} (h : x ∈ pyStrip l) : x ∈ l := by
  obtain ⟨u, v, hl⟩ := pyStrip_decomp l
  rw [hl]
  exact List.mem_append_left v (List.mem_append_right u h)

theorem not_canMatch_pyStrip {l : List Char} (h : ¬ CanMatch l) :
    ¬ CanMatch (pyStrip l) := by
  intro hcm
  obtain ⟨u, v, hl⟩ := pyStrip_decomp l
  exact h (hl ▸ canMatch_append u v hcm)

theorem dropWhile_idem {p : Char → Bool} :
    ∀ l : List Char, (l.dropWhile p).dropWhile p = l.dropWhile p
  | [] => rfl
  | c :: cs => by
    rw [List.dropWhile_cons]
    by_cases hc : p c = true
    · rw [if_pos hc]
      exact dropWhile_idem cs
    · rw [if_neg hc, List.dropWhile_cons, if_neg hc]

theorem dropWhile_head_false {p : Char → Bool} :
    ∀ {l : List Char} {c : Char} {t : List Char},
      l.dropWhile p = c :: t → p c = false
  | [], c, t, h => by simp [List.dropWhile] at h
  | d :: ds, c, t, h => by
    rw [List.dropWhile_cons] at h
    by_cases hd : p d = true
    · rw [if_pos hd] at h
      exact dropWhile_head_false h
    · rw [if_neg hd] at h
      cases h
      exact Bool.eq_false_iff.mpr hd

theorem pyStrip_idem (l : List Char) : pyStrip (pyStrip l) = pyStrip l := by
  set t := l.dropWhile pyIsSpace with ht
  have hA : pyStrip l = (t.reverse.dropWhile pyIsSpace).reverse := rfl
  have hdropA : (pyStrip l).dropWhile pyIsSpace = pyStrip l := by
    cases hA' : pyStrip l with
    | nil => rfl
    | cons c A' =>
      have hpre : ∃ r, t = (c :: A') ++ r := by
        obtain ⟨u, v, -⟩ := pyStrip_decomp l
        refine ⟨(t.reverse.takeWhile pyIsSpace).reverse, ?_⟩
        have h3 : t.reverse =
            t.reverse.takeWhile pyIsSpace ++ t.reverse.dropWhile pyIsSpace :=
          (List.takeWhile_append_dropWhile pyIsSpace _).symm
        calc t = t.reverse.reverse := by rw [List.reverse_reverse]
          _ = (t.reverse.takeWhile pyIsSpace ++ t.reverse.dropWhile pyIsSpace).reverse := by
              rw [← h3]
          _ = (t.reverse.dropWhile pyIsSpace).reverse ++
              (t.reverse.takeWhile pyIsSpace).reverse := List.reverse_append _ _
          _ = (c :: A') ++ (t.reverse.takeWhile pyIsSpace).reverse := by
              rw [← hA, hA']
      obtain ⟨r, hr⟩ := hpre
      have hc : pyIsSpace c = false := by
        have hdw : List.dropWhile pyIsSpace l = c :: (A' ++ r) := by
          rw [← ht, hr]
          rfl
        exact dropWhile_head_false hdw
      rw [List.dropWhile_cons, if_neg (by simp [hc])]
  have hrevA : (pyStrip l).reverse.dropWhile pyIsSpace = (pyStrip l).reverse := by
    have : (pyStrip l).reverse = t.reverse.dropWhile pyIsSpace := by
      rw [hA, List.reverse_reverse]
    rw [this]
    exact dropWhile_idem _
  show (((pyStrip l).dropWhile pyIsSpace).reverse.dropWhile pyIsSpace).reverse = pyStrip l
  rw [hdropA, hrevA, List.reverse_reverse]

theorem normList_no_yeok {l : List Char} : '역' ∉ normList l := by
  intro h
  have h1 : '역' ∈ (removeParens l).filter (fun c => decide (c ≠ '역')) :=
    mem_pyStrip h
  have h2 := List.of_mem_filter h1
  simp at h2

theorem not_canMatch_normList (l : List Char) : ¬ CanMatch (normList l) := by
  apply not_canMatch_pyStrip
  intro h
  exact not_canMatch_rpF (le_refl l.length)
    (canMatch_filter (by decide) (by decide) h)

theorem normList_idem (l : List Char) : normList (normList l) = normList l := by
  have h1 : removeParens (normList l) = normList l :=
    rpF_eq_self_of_not_canMatch (not_canMatch_normList l)
  have h2 : (normList l).filter (fun c => decide (c ≠ '역')) = normList l := by
    rw [List.filter_eq_self]
    intro a ha
    simp only [decide_eq_true_eq]
    intro hy
    exact normList_no_yeok (hy ▸ ha)
  show pyStrip ((removeParens (normList l)).filter (fun c => decide (c ≠ '역'))) = normList l
  rw [h1, h2]
  exact pyStrip_idem _

/-- **C4** — Normalization is idempotent: `norm (norm s) = norm s` for every
string `s`. -/
theorem claim_C4 (s : String) : norm (norm s) = norm s := by
  show (⟨normList (normList s.data)⟩ : String) = ⟨normList s.data⟩
  rw [normList_idem]

/-- **C3** — The normalizer deletes every shortest parenthesised span (for
instance norm "강남(2호선)" = "강남" and norm "a(b(c)d)e" = "ad)e", the span
running from the first `(` to the first `)` after it), deletes every
occurrence of the character 역 — also in non-final position, as in
norm "역삼역" = "삼" — and strips surrounding whitespace
(norm "  합정 " = "합정"); the count of 역 in any normalized string is 0. -/
theorem claim_C3 :
    norm "강남(2호선)" = "강남" ∧
    norm "a(b(c)d)e" = "ad)e" ∧
    norm "역삼역" = "삼" ∧
    norm "  합정 " = "합정" ∧
    ∀ s : String, (norm s).data.count '역' = 0 := by
  refine ⟨by decide, by decide, by decide, by decide, ?_⟩
  intro s
  rw [List.count_eq_zero]
  exact normList_no_yeok

/-! ## build_map (src/main.py lines 55-64)

`build_map(dfs)` collects into a set every non-null value of the columns
`STN_NM`, `SBWY_STNS_NM`, `STATION_NAME` of the given tables, then for each
collected raw name `r` runs `n2r.setdefault(norm(r), []).append(r)`.

A table is embedded as an association list from column name to the list of
that column's values (`none` = missing/NaN, dropped by `dropna`).  The
Python `set` has an unspecified iteration order, so the theorems quantify
over an arbitrary duplicate-free list `raw` holding exactly the collected
values; `rawOccurrences` lists the raw values in source order. -/

structure DF where
  cols : List (String × List (Option String))

/-- The three recognized station-name columns, in the order the code
checks them. -/
def nameCols : List String := ["STN_NM", "SBWY_STNS_NM", "STATION_NAME"]

/-- All non-null values appearing in a recognized name column of one of
the tables, in iteration order (before the set collapses duplicates). -/
def rawOccurrences (dfs : List DF) : List String :=
  dfs.flatMap (fun df =>
    (nameCols.filter (fun c => (dictGet df.cols c).isSome)).flatMap
      (fun c => ((dictGet df.cols c).getD []).filterMap id))

/-- One `n2r.setdefault(norm(r), []).append(r)` step on the association
list embedding of the dict (insertion order preserved; appends to the
bucket of `norm r`, creating it at the end if absent). -/
def addRaw : List (String × List String) → String → List (String × List String)
  | [], r => [(norm r, [r])]
  | (k, vs) :: rest, r =>
    if k = norm r then (k, vs ++ [r]) :: rest
    else (k, vs) :: addRaw rest r

/-- `build_map`: fold the collected raw names into the dict. -/
def build_map (raw : List String) : List (String × List String) :=
  raw.foldl addRaw []

/-! ### Lemmas about build_map -/

theorem mem_addRaw_norm {m : List (String × List String)} {r : String}
    (hm : ∀ p ∈ m, ∀ x ∈ p.2, norm x = p.1) :
    ∀ p ∈ addRaw m r, ∀ x ∈ p.2, norm x = p.1 := by
  induction m with
  | nil =>
    intro p hp x hx
    simp only [addRaw, List.mem_singleton] at hp
    subst hp
    simp only [List.mem_singleton] at hx
    subst hx
    rfl
  | cons q rest ih =>
    obtain ⟨k, vs⟩ := q
    intro p hp x hx
    rw [addRaw] at hp
    split at hp
    · rename_i hk
      rcases List.mem_cons.mp hp with h | h
      · subst h
        simp only at hx
        rcases List.mem_append.mp hx with h' | h'
        · exact hm (k, vs) (List.mem_cons_self _ _) x h'
        · simp only [List.mem_singleton] at h'
          subst h'
          exact hk.symm
      · exact hm p (List.mem_cons_of_mem _ h) x hx
    · rcases List.mem_cons.mp hp with h | h
      · subst h
        exact hm (k, vs) (List.mem_cons_self _ _) x hx
      · exact ih (fun p hp => hm p (List.mem_cons_of_mem _ hp)) p h x hx

/-- Every bucket of the built map holds only names normalizing to its key. -/
theorem build_map_norm_key {raw : List String} :
    ∀ p ∈ build_map raw, ∀ x ∈ p.2, norm x = p.1 := by
  suffices h : ∀ (m : List (String × List String)),
      (∀ p ∈ m, ∀ x ∈ p.2, norm x = p.1) →
      ∀ p ∈ raw.foldl addRaw m, ∀ x ∈ p.2, norm x = p.1 by
    exact h [] (by simp)
  induction raw with
  | nil => intro m hm; simpa using hm
  | cons r rest ih =>
    intro m hm
    exact ih (addRaw m r) (mem_addRaw_norm hm)

theorem dictGet_addRaw_self (m : List (String × List String)) (r : String) :
    dictGet (addRaw m r) (norm r) =
      some (((dictGet m (norm r)).getD []) ++ [r]) := by
  induction m with
  | nil => simp [addRaw, dictGet]
  | cons q rest ih =>
    obtain ⟨k, vs⟩ := q
    rw [addRaw]
    split
    · rename_i hk
      rw [dictGet, if_pos hk, dictGet, if_pos hk]
      rfl
    · rename_i hk
      rw [dictGet, if_neg hk, dictGet, if_neg hk, ih]

theorem dictGet_addRaw_other {m : List (String × List String)} {r k : String}
    (h : k ≠ norm r) : dictGet (addRaw m r) k = dictGet m k := by
  induction m with
  | nil =>
    simp only [addRaw, dictGet]
    rw [if_neg (fun e => h e.symm)]
  | cons q rest ih =>
    obtain ⟨k', vs⟩ := q
    rw [addRaw]
    split
    · rename_i hk'
      rw [dictGet, dictGet]
      have : ¬ k' = k := fun e => h (e ▸ hk')
      rw [if_neg this, if_neg this]
    · rw [dictGet, dictGet]
      split
      · rfl
      · exact ih

theorem addRaw_preserves_found {m : List (String × List String)} {r x : String}
    (h : ∃ vs, dictGet m (norm r) = some vs ∧ r ∈ vs) :
    ∃ vs, dictGet (addRaw m x) (norm r) = some vs ∧ r ∈ vs := by
  obtain ⟨vs, hvs, hr⟩ := h
  by_cases he : norm r = norm x
  · rw [he, dictGet_addRaw_self]
    refine ⟨_, rfl, ?_⟩
    rw [← he, hvs]
    exact List.mem_append_left _ hr
  · rw [dictGet_addRaw_other he]
    exact ⟨vs, hvs, hr⟩

/-- After processing, every processed raw name is in the bucket of its
normalized key. -/
theorem build_map_found {raw : List String} {r : String} (hr : r ∈ raw) :
    ∃ vs, dictGet (build_map raw) (norm r) = some vs ∧ r ∈ vs := by
  suffices h : ∀ (m : List (String × List String)),
      (r ∈ raw ∨ ∃ vs, dictGet m (norm r) = some vs ∧ r ∈ vs) →
      ∃ vs, dictGet (raw.foldl addRaw m) (norm r) = some vs ∧ r ∈ vs by
    exact h [] (Or.inl hr)
  clear hr
  induction raw with
  | nil =>
    intro m hm
    rcases hm with h | h
    · simp at h
    · simpa using h
  | cons x rest ih =>
    intro m hm
    rw [List.foldl_cons]
    apply ih
    rcases hm with h | h
    · rcases List.mem_cons.mp h with h' | h'
      · subst h'
        right
        rw [dictGet_addRaw_self]
        exact ⟨_, rfl, List.mem_append_right _ (List.mem_singleton.mpr rfl)⟩
      · exact Or.inl h'
    · exact Or.inr (addRaw_preserves_found h)

/-- **C5** — Name-Map invariant: any raw station name drawn from a
recognized name column of the source tables lands, after `build_map`, in
the bucket of exactly one key — its own normalized form — and in no other
bucket.  `raw` is the content of the Python set (any duplicate-free
enumeration of the occurring values). -/
theorem claim_C5 (dfs : List DF) (raw : List String) (r : String)
    (_hnd : raw.Nodup)
    (hmem : ∀ x, x ∈ raw ↔ x ∈ rawOccurrences dfs)
    (hr : r ∈ rawOccurrences dfs) :
    (∃ vs, dictGet (build_map raw) (norm r) = some vs ∧ r ∈ vs) ∧
    (∀ k vs, (k, vs) ∈ build_map raw → r ∈ vs → k = norm r) := by
  constructor
  · exact build_map_found ((hmem r).mpr hr)
  · intro k vs hkv hrv
    exact (build_map_norm_key (k, vs) hkv r hrv).symm

/-- Witness for C5 at a concrete one-table collection containing the raw
names 합정역 and 합정 in its `STN_NM` column. -/
theorem claim_C5_witness :
    (["합정역", "합정"] : List String).Nodup ∧
    ((∃ vs, dictGet (build_map ["합정역", "합정"]) (norm "합정역") = some vs ∧
        "합정역" ∈ vs) ∧
     (∀ k vs, (k, vs) ∈ build_map ["합정역", "합정"] → "합정역" ∈ vs →
        k = norm "합정역")) := by
  refine ⟨by decide, ?_⟩
  exact claim_C5 [⟨[("STN_NM", [some "합정역", some "합정"])]⟩]
    ["합정역", "합정"] "합정역" (by decide) (fun x => Iff.rfl) (by decide)

/-! ## difflib.SequenceMatcher and get_close_matches

The resolver's fuzzy fallback (src/main.py line 78) is
`get_close_matches(key, nmap.keys(), n=1, cutoff=0.4)`.  The CPython
library code is embedded:

* `set_seq2(word)` builds `b2j`; with `autojunk=True` (the default), when
  `len(b) >= 200` the characters occurring in more than `len(b)//100 + 1`
  positions of `b` are dropped from `b2j` ("popular" junk).
* `find_longest_match(alo, ahi, blo, bhi)` runs the `j2len` dynamic
  programme over non-junk positions, keeping the first strictly larger
  run (ties keep the earlier `i`, then the earlier `j`), then extends the
  winning block over matching non-junk characters and finally over
  matching junk characters, on both sides.
* `get_matching_blocks` recurses on the two flanks of the winning block;
  `ratio()` is `2*M/T` where `M` is the total matched size and `T` the sum
  of the lengths (`1` when `T = 0`).
* `get_close_matches` keeps the candidates whose `real_quick_ratio`,
  `quick_ratio` and `ratio` all reach the cutoff, and returns the best one
  (`heapq.nlargest(1, ·)` = Python `max`, comparing `(ratio, string)`
  pairs, keeping the first of equal maxima).

Floats are embedded as exact rationals.  The `while` loops and the block
recursion carry a fuel argument that dominates their iteration count. -/

/-- The junk ("popular") characters of `b`, per the autojunk heuristic of
`SequenceMatcher.__chain_b`. -/
def bjunk (b : List Char) : List Char :=
  if 200 ≤ b.length then
    b.dedup.filter (fun c => decide (b.length / 100 + 1 < b.count c))
  else []

/-- `a[i] == b[j]`, false when either index is out of range. -/
def matchAt (a b : List Char) (i j : Nat) : Bool :=
  match a[i]?, b[j]? with
  | some x, some y => decide (x = y)
  | _, _ => false

/-- `isbjunk(b[j])`, false when out of range. -/
def isbjunkAt (b junk : List Char) (j : Nat) : Bool :=
  match b[j]? with
  | some y => junk.contains y
  | none => false

/-- Length of the matching run ending at `(i, j)` that the `j2len` dynamic
programme computes: the longest common suffix of `a[alo..i]` and
`b[blo..j]` through non-junk positions of `b`. -/
def runLen (a b junk : List Char) (alo blo : Nat) : Nat → Nat → Nat
  | 0, j =>
    if matchAt a b 0 j = true ∧ isbjunkAt b junk j = false then 1 else 0
  | i + 1, j =>
    if matchAt a b (i + 1) j = true ∧ isbjunkAt b junk j = false then
      if alo < i + 1 ∧ blo < j then runLen a b junk alo blo i (j - 1) + 1
      else 1
    else 0

/-- The `j2len` dynamic programme of `find_longest_match`: scan `i` then
`j` in increasing order, replacing the best block only on a strictly
longer run (so ties keep the earliest `i`, then the earliest `j`). -/
def flmDP (a b junk : List Char) (alo ahi blo bhi : Nat) : Nat × Nat × Nat :=
  (List.range' alo (ahi - alo)).foldl
    (fun best i =>
      (List.range' blo (bhi - blo)).foldl
        (fun best j =>
          let k := runLen a b junk alo blo i j
          if best.2.2 < k then (i + 1 - k, j + 1 - k, k) else best)
        best)
    (alo, blo, 0)

/-- The left extension loops of `find_longest_match` (`jf = false` for the
non-junk loop, `jf = true` for the junk loop).  The fuel, set to the
current `besti`, dominates the iteration count. -/
def extLeft (a b junk : List Char) (alo blo : Nat) (jf : Bool) :
    Nat → Nat × Nat × Nat → Nat × Nat × Nat
  | 0, st => st
  | fuel + 1, (bi, bj, bk) =>
    if alo < bi ∧ blo < bj ∧ isbjunkAt b junk (bj - 1) = jf ∧
        matchAt a b (bi - 1) (bj - 1) = true
    then extLeft a b junk alo blo jf fuel (bi - 1, bj - 1, bk + 1)
    else (bi, bj, bk)

/-- The right extension loops of `find_longest_match`.  The fuel, set to
`ahi`, dominates the iteration count. -/
def extRight (a b junk : List Char) (ahi bhi : Nat) (jf : Bool) :
    Nat → Nat × Nat × Nat → Nat × Nat × Nat
  | 0, st => st
  | fuel + 1, (bi, bj, bk) =>
    if bi + bk < ahi ∧ bj + bk < bhi ∧ isbjunkAt b junk (bj + bk) = jf ∧
        matchAt a b (bi + bk) (bj + bk) = true
    then extRight a b junk ahi bhi jf fuel (bi, bj, bk + 1)
    else (bi, bj, bk)

/-- `find_longest_match(alo, ahi, blo, bhi)`: the dynamic programme, then
the two non-junk extension loops, then the two junk extension loops. -/
def flm (a b junk : List Char) (alo ahi blo bhi : Nat) : Nat × Nat × Nat :=
  let d := flmDP a b junk alo ahi blo bhi
  let e1 := extLeft a b junk alo blo false d.1 d
  let e2 := extRight a b junk ahi bhi false ahi e1
  let e3 := extLeft a b junk alo blo true e2.1 e2
  extRight a b junk ahi bhi true ahi e3

/-- Total size of the matching blocks of `get_matching_blocks` on the
range `[alo, ahi) × [blo, bhi)`: the winning block plus the recursion on
its two flanks.  Each recursion level shrinks `(ahi-alo)+(bhi-blo)` by at
least two, so fuel `(ahi-alo)+(bhi-blo)` reaches every level whose ranges
are non-empty (at fuel 0 both ranges are empty and the value 0 agrees with
the recursion). -/
def matchingTotalF (a b junk : List Char) :
    Nat → Nat → Nat → Nat → Nat → Nat
  | 0, _, _, _, _ => 0
  | fuel + 1, alo, ahi, blo, bhi =>
    let st := flm a b junk alo ahi blo bhi
    if st.2.2 = 0 then 0
    else
      matchingTotalF a b junk fuel alo st.1 blo st.2.1 + st.2.2 +
      matchingTotalF a b junk fuel (st.1 + st.2.2) ahi (st.2.1 + st.2.2) bhi

/-- `sum(triple.size for triple in get_matching_blocks())` for the two
full sequences. -/
def matchingTotal (a b : List Char) : Nat :=
  matchingTotalF a b (bjunk b) (a.length + b.length) 0 a.length 0 b.length

/-- `_calculate_ratio(matches, length)`: `2*matches/length`, or `1` for
two empty sequences. -/
def calcRatio (m T : Nat) : ℚ :=
  if T = 0 then 1 else 2 * (m : ℚ) / (T : ℚ)

/-- `SequenceMatcher(None, a, b).ratio()`. -/
def ratio (a b : List Char) : ℚ :=
  calcRatio (matchingTotal a b) (a.length + b.length)

/-- `quick_ratio()`: matches counted as the multiset intersection of the
two character multisets. -/
def quickRatio (a b : List Char) : ℚ :=
  calcRatio (Multiset.card ((a : Multiset Char) ∩ (b : Multiset Char)))
    (a.length + b.length)

/-- `real_quick_ratio()`: matches bounded by the shorter length. -/
def realQuickRatio (a b : List Char) : ℚ :=
  calcRatio (min a.length b.length) (a.length + b.length)

/-- Python tuple comparison `(r, s) < (r', s')` on (ratio, string) pairs;
Lean's `String` order is the code-point lexicographic order Python uses. -/
def pairLt (p q : ℚ × String) : Prop :=
  p.1 < q.1 ∨ (p.1 = q.1 ∧ p.2 < q.2)

instance (p q : ℚ × String) : Decidable (pairLt p q) := by
  unfold pairLt; infer_instance

/-- Python `max` over a list of (ratio, string) pairs: keeps the first of
equal maxima (`heapq.nlargest(1, ·)` delegates to `max`). -/
def maxPair? : List (ℚ × String) → Option (ℚ × String)
  | [] => none
  | p :: ps => some (ps.foldl (fun m q => if pairLt m q then q else m) p)

/-- The filter of `get_close_matches`: a candidate is scored iff its
`real_quick_ratio`, `quick_ratio` and `ratio` against the word all reach
the cutoff. -/
def scoreFilter (cutoff : ℚ) (word x : String) : Option (ℚ × String) :=
  if cutoff ≤ realQuickRatio x.data word.data ∧
     cutoff ≤ quickRatio x.data word.data ∧
     cutoff ≤ ratio x.data word.data
  then some (ratio x.data word.data, x) else none

/-- `get_close_matches(word, possibilities, n=1, cutoff)`. -/
def getCloseMatches1 (word : String) (poss : List String) (cutoff : ℚ) :
    List String :=
  match maxPair? (poss.filterMap (scoreFilter cutoff word)) with
  | none => []
  | some p => [p.2]

/-! ## The resolver (src/main.py lines 74-79) -/

/-- The 0.4 cutoff of the `get_close_matches` call, as an exact rational. -/
def CUTOFF : ℚ := 2 / 5

/-- Target resolution: exact dict hit on the normalized query, else the
single best fuzzy match over the map's keys, else the empty list
(`nmap.get(close[0], [])` with `close[0]` drawn from the keys). -/
def resolve (nmap : List (String × List String)) (query : String) :
    List String :=
  match dictGet nmap (norm query) with
  | some vs => vs
  | none =>
    match getCloseMatches1 (norm query) (nmap.map Prod.fst) CUTOFF with
    | [] => []
    | c :: _ => (dictGet nmap c).getD []

/-! ### The matching blocks are genuine blocks of equal characters

`BlockOK` is the invariant carried through `find_longest_match`: the state
is either the initial `(alo, blo, 0)` or a block of matching characters
lying inside the requested ranges.  Nothing about maximality is needed:
the ratio bounds below only use that matched characters are equal and
within range. -/

def BlockOK (a b : List Char) (alo ahi blo bhi : Nat)
    (st : Nat × Nat × Nat) : Prop :=
  st = (alo, blo, 0) ∨
  (1 ≤ st.2.2 ∧ alo ≤ st.1 ∧ st.1 + st.2.2 ≤ ahi ∧ blo ≤ st.2.1 ∧
   st.2.1 + st.2.2 ≤ bhi ∧
   ∀ t, t < st.2.2 → matchAt a b (st.1 + t) (st.2.1 + t) = true)

theorem runLen_le_left (a b junk : List Char) (alo blo : Nat) :
    ∀ (i j : Nat), alo ≤ i → runLen a b junk alo blo i j ≤ i + 1 - alo
  | 0, j, h => by
    rw [runLen]
    split
    · omega
    · omega
  | i + 1, j, h => by
    rw [runLen]
    split
    · split
      · rename_i hlt
        have := runLen_le_left a b junk alo blo i (j - 1)
          (Nat.lt_succ_iff.mp hlt.1)
        omega
      · omega
    · omega

theorem runLen_le_right (a b junk : List Char) (alo blo : Nat) :
    ∀ (i j : Nat), blo ≤ j → runLen a b junk alo blo i j ≤ j + 1 - blo
  | 0, j, h => by
    rw [runLen]
    split
    · omega
    · omega
  | i + 1, j, h => by
    rw [runLen]
    split
    · split
      · rename_i hlt
        have := runLen_le_right a b junk alo blo i (j - 1) (by omega)
        omega
      · omega
    · omega

theorem runLen_chars {a b junk : List Char} {alo blo : Nat} :
    ∀ {i j t : Nat}, t < runLen a b junk alo blo i j →
      matchAt a b (i - t) (j - t) = true
  | 0, j, t, h => by
    rw [runLen] at h
    split at h
    · rename_i hc
      have : t = 0 := by omega
      subst this
      simpa using hc.1
    · omega
  | i + 1, j, t, h => by
    rw [runLen] at h
    split at h
    · rename_i hc
      split at h
      · rename_i hlt
        cases t with
        | zero => simpa using hc.1
        | succ t' =>
          have ht' : t' < runLen a b junk alo blo i (j - 1) := by omega
          have := runLen_chars ht'
          have e1 : i + 1 - (t' + 1) = i - t' := by omega
          have e2 : j - (t' + 1) = j - 1 - t' := by omega
          rw [e1, e2]
          exact this
      · have : t = 0 := by omega
        subst this
        simpa using hc.1
    · omega

theorem flmDP_inner_ok {a b junk : List Char} {alo ahi blo bhi i : Nat}
    (hi : alo ≤ i) (hi' : i < ahi) :
    ∀ (js : List Nat) (best : Nat × Nat × Nat),
      BlockOK a b alo ahi blo bhi best →
      (∀ j ∈ js, blo ≤ j ∧ j < bhi) →
      BlockOK a b alo ahi blo bhi
        (js.foldl (fun best j =>
          let k := runLen a b junk alo blo i j
          if best.2.2 < k then (i + 1 - k, j + 1 - k, k) else best) best)
  | [], best, hb, _ => hb
  | j :: js, best, hb, hjs => by
    rw [List.foldl_cons]
    apply flmDP_inner_ok hi hi' js
    · show BlockOK a b alo ahi blo bhi
        (if best.2.2 < runLen a b junk alo blo i j
         then (i + 1 - runLen a b junk alo blo i j,
               j + 1 - runLen a b junk alo blo i j,
               runLen a b junk alo blo i j)
         else best)
      split
      · rename_i hk
        set k := runLen a b junk alo blo i j with hkdef
        obtain ⟨hjlo, hjhi⟩ := hjs j (List.mem_cons_self _ _)
        have hk1 : 1 ≤ k := by omega
        have hkle1 : k ≤ i + 1 - alo := runLen_le_left a b junk alo blo i j hi
        have hkle2 : k ≤ j + 1 - blo := runLen_le_right a b junk alo blo i j hjlo
        right
        dsimp only
        refine ⟨hk1, by omega, by omega, by omega, by omega, ?_⟩
        intro t ht
        have h1 : i + 1 - k + t = i - (k - 1 - t) := by omega
        have h2 : j + 1 - k + t = j - (k - 1 - t) := by omega
        rw [h1, h2]
        have harg : k - 1 - t < runLen a b junk alo blo i j := by
          rw [← hkdef]
          omega
        exact runLen_chars harg
      · exact hb
    · exact fun j' hj' => hjs j' (List.mem_cons_of_mem _ hj')

theorem flmDP_ok (a b junk : List Char) (alo ahi blo bhi : Nat) :
    BlockOK a b alo ahi blo bhi (flmDP a b junk alo ahi blo bhi) := by
  rw [flmDP]
  have main : ∀ (is : List Nat) (best : Nat × Nat × Nat),
      BlockOK a b alo ahi blo bhi best →
      (∀ i ∈ is, alo ≤ i ∧ i < ahi) →
      BlockOK a b alo ahi blo bhi
        (is.foldl (fun best i =>
          (List.range' blo (bhi - blo)).foldl
            (fun best j =>
              let k := runLen a b junk alo blo i j
              if best.2.2 < k then (i + 1 - k, j + 1 - k, k) else best)
            best) best) := by
    intro is
    induction is with
    | nil => intro best hb _; exact hb
    | cons i is ih =>
      intro best hb his
      rw [List.foldl_cons]
      apply ih
      · obtain ⟨hi, hi'⟩ := his i (List.mem_cons_self _ _)
        apply flmDP_inner_ok hi hi'
        · exact hb
        · intro j hj
          have := List.mem_range'_1.mp hj
          omega
      · exact fun i' hi' => his i' (List.mem_cons_of_mem _ hi')
  apply main
  · exact Or.inl rfl
  · intro i hi
    have := List.mem_range'_1.mp hi
    omega

theorem extLeft_ok {a b junk : List Char} {alo ahi blo bhi : Nat} {jf : Bool} :
    ∀ (fuel : Nat) (st : Nat × Nat × Nat),
      BlockOK a b alo ahi blo bhi st →
      BlockOK a b alo ahi blo bhi (extLeft a b junk alo blo jf fuel st)
  | 0, st, hb => hb
  | fuel + 1, (bi, bj, bk), hb => by
    rw [extLeft]
    split
    · rename_i hc
      obtain ⟨h1, h2, -, h4⟩ := hc
      apply extLeft_ok fuel
      rcases hb with h | ⟨hk, hlo, hhi, hblo, hbhi, hch⟩
      · exfalso
        have : bi = alo := congrArg (·.1) h
        omega
      · right
        dsimp only at hk hlo hhi hblo hbhi hch ⊢
        refine ⟨by omega, by omega, by omega, by omega, by omega, ?_⟩
        intro t ht
        cases t with
        | zero => simpa using h4
        | succ t' =>
          have e1 : bi - 1 + (t' + 1) = bi + t' := by omega
          have e2 : bj - 1 + (t' + 1) = bj + t' := by omega
          rw [e1, e2]
          exact hch t' (by omega)
    · exact hb

theorem extRight_ok {a b junk : List Char} {alo ahi blo bhi : Nat} {jf : Bool} :
    ∀ (fuel : Nat) (st : Nat × Nat × Nat),
      BlockOK a b alo ahi blo bhi st →
      BlockOK a b alo ahi blo bhi (extRight a b junk ahi bhi jf fuel st)
  | 0, st, hb => hb
  | fuel + 1, (bi, bj, bk), hb => by
    rw [extRight]
    split
    · rename_i hc
      obtain ⟨h1, h2, -, h4⟩ := hc
      apply extRight_ok fuel
      rcases hb with h | ⟨hk, hlo, hhi, hblo, hbhi, hch⟩
      · have hbi : bi = alo := congrArg (·.1) h
        have hbj : bj = blo := congrArg (·.2.1) h
        have hbk : bk = 0 := congrArg (·.2.2) h
        right
        dsimp only
        refine ⟨by omega, by omega, by omega, by omega, by omega, ?_⟩
        intro t ht
        have ht0 : t = 0 := by omega
        subst ht0
        have e1 : bi + 0 = bi + bk := by omega
        have e2 : bj + 0 = bj + bk := by omega
        rw [e1, e2]
        exact h4
      · right
        dsimp only at hk hlo hhi hblo hbhi hch ⊢
        refine ⟨by omega, hlo, by omega, hblo, by omega, ?_⟩
        intro t ht
        rcases Nat.lt_succ_iff_lt_or_eq.mp ht with h | h
        · exact hch t h
        · subst h
          exact h4
    · exact hb

theorem flm_ok (a b junk : List Char) (alo ahi blo bhi : Nat) :
    BlockOK a b alo ahi blo bhi (flm a b junk alo ahi blo bhi) := by
  rw [flm]
  exact extRight_ok _ _ (extLeft_ok _ _ (extRight_ok _ _ (extLeft_ok _ _
    (flmDP_ok a b junk alo ahi blo bhi))))

/-! ### Bounds on the total matched size -/

theorem matchAt_spec {a b : List Char} {i j : Nat}
    (h : matchAt a b i j = true) : ∃ c, a[i]? = some c ∧ b[j]? = some c := by
  rw [matchAt] at h
  cases ha : a[i]? with
  | none => rw [ha] at h; cases h
  | some x =>
    cases hb : b[j]? with
    | none => rw [ha, hb] at h; cases h
    | some y =>
      rw [ha, hb] at h
      have : x = y := of_decide_eq_true h
      exact ⟨x, rfl, by rw [this]⟩

theorem matchingTotalF_le_left (a b junk : List Char) :
    ∀ (fuel alo ahi blo bhi : Nat),
      matchingTotalF a b junk fuel alo ahi blo bhi ≤ ahi - alo
  | 0, _, _, _, _ => Nat.zero_le _
  | fuel + 1, alo, ahi, blo, bhi => by
    rw [matchingTotalF]
    split
    · exact Nat.zero_le _
    · rename_i hk
      rcases flm_ok a b junk alo ahi blo bhi with h |
        ⟨h1, h2, h3, h4, h5, -⟩
      · exact absurd (congrArg (·.2.2) h) hk
      · have ha := matchingTotalF_le_left a b junk fuel alo
          (flm a b junk alo ahi blo bhi).1 blo (flm a b junk alo ahi blo bhi).2.1
        have hb := matchingTotalF_le_left a b junk fuel
          ((flm a b junk alo ahi blo bhi).1 + (flm a b junk alo ahi blo bhi).2.2)
          ahi
          ((flm a b junk alo ahi blo bhi).2.1 + (flm a b junk alo ahi blo bhi).2.2)
          bhi
        omega

theorem matchingTotalF_le_right (a b junk : List Char) :
    ∀ (fuel alo ahi blo bhi : Nat),
      matchingTotalF a b junk fuel alo ahi blo bhi ≤ bhi - blo
  | 0, _, _, _, _ => Nat.zero_le _
  | fuel + 1, alo, ahi, blo, bhi => by
    rw [matchingTotalF]
    split
    · exact Nat.zero_le _
    · rename_i hk
      rcases flm_ok a b junk alo ahi blo bhi with h |
        ⟨h1, h2, h3, h4, h5, -⟩
      · exact absurd (congrArg (·.2.2) h) hk
      · have ha := matchingTotalF_le_right a b junk fuel alo
          (flm a b junk alo ahi blo bhi).1 blo (flm a b junk alo ahi blo bhi).2.1
        have hb := matchingTotalF_le_right a b junk fuel
          ((flm a b junk alo ahi blo bhi).1 + (flm a b junk alo ahi blo bhi).2.2)
          ahi
          ((flm a b junk alo ahi blo bhi).2.1 + (flm a b junk alo ahi blo bhi).2.2)
          bhi
        omega

/-- The characters of `l` at positions `[lo, hi)`, as a multiset. -/
def msRange (l : List Char) (lo hi : Nat) : Multiset Char :=
  (((l.drop lo).take (hi - lo) : List Char) : Multiset Char)

theorem msRange_split (l : List Char) (lo mid hi : Nat)
    (h1 : lo ≤ mid) (h2 : mid ≤ hi) :
    msRange l lo hi = msRange l lo mid + msRange l mid hi := by
  show (((l.drop lo).take (hi - lo) : List Char) : Multiset Char) = _
  have he : hi - lo = (mid - lo) + (hi - mid) := by omega
  rw [he, List.take_add]
  have hd : (l.drop lo).drop (mid - lo) = l.drop mid := by
    rw [List.drop_drop]
    congr 1
    omega
  rw [hd]
  exact Multiset.coe_add _ _

theorem msRange_full (l : List Char) :
    msRange l 0 l.length = (l : Multiset Char) := by
  show (((l.drop 0).take (l.length - 0) : List Char) : Multiset Char) = _
  rw [List.drop_zero, Nat.sub_zero, List.take_length]

theorem inter_superadd (s₁ s₂ t₁ t₂ : Multiset Char) :
    Multiset.card (s₁ ∩ t₁) + Multiset.card (s₂ ∩ t₂) ≤
      Multiset.card ((s₁ + s₂) ∩ (t₁ + t₂)) := by
  rw [← Multiset.card_add]
  apply Multiset.card_le_card
  rw [Multiset.le_iff_count]
  intro c
  simp only [Multiset.count_add, Multiset.count_inter]
  omega

theorem inter_self_card (B : Multiset Char) : B ∩ B = B := by
  rw [Multiset.ext]
  intro c
  rw [Multiset.count_inter]
  omega

/-- The total matched size is at most the size of the multiset
intersection of the two character ranges (the bound behind
`quick_ratio`). -/
theorem matchingTotalF_le_inter (a b junk : List Char) :
    ∀ (fuel alo ahi blo bhi : Nat),
      matchingTotalF a b junk fuel alo ahi blo bhi ≤
        Multiset.card (msRange a alo ahi ∩ msRange b blo bhi)
  | 0, _, _, _, _ => Nat.zero_le _
  | fuel + 1, alo, ahi, blo, bhi => by
    rw [matchingTotalF]
    split
    · exact Nat.zero_le _
    · rename_i hk
      rcases flm_ok a b junk alo ahi blo bhi with h |
        ⟨h1, h2, h3, h4, h5, hch⟩
      · exact absurd (congrArg (·.2.2) h) hk
      · set st := flm a b junk alo ahi blo bhi with hst
        set i := st.1
        set j := st.2.1
        set k := st.2.2
        have hil : i + k ≤ a.length := by
          obtain ⟨c, hc1, -⟩ := matchAt_spec (hch (k - 1) (by omega))
          obtain ⟨hlt, -⟩ := List.getElem?_eq_some.mp hc1
          omega
        have hjl : j + k ≤ b.length := by
          obtain ⟨c, -, hc2⟩ := matchAt_spec (hch (k - 1) (by omega))
          obtain ⟨hlt, -⟩ := List.getElem?_eq_some.mp hc2
          omega
        have hblock : ((a.drop i).take k : List Char) = (b.drop j).take k := by
          apply List.ext_getElem?
          intro n
          rw [List.getElem?_take, List.getElem?_take]
          split
          · rename_i hn
            rw [List.getElem?_drop, List.getElem?_drop]
            obtain ⟨c, hc1, hc2⟩ := matchAt_spec (hch n hn)
            rw [hc1, hc2]
          · rfl
        have hBa : msRange a i (i + k) = ((a.drop i).take k : List Char) := by
          show (((a.drop i).take (i + k - i) : List Char) : Multiset Char) = _
          have he : i + k - i = k := by omega
          rw [he]
        have hBb : msRange b j (j + k) = ((b.drop j).take k : List Char) := by
          show (((b.drop j).take (j + k - j) : List Char) : Multiset Char) = _
          have he : j + k - j = k := by omega
          rw [he]
        have hcardB :
            Multiset.card (((a.drop i).take k : List Char) : Multiset Char)
              = k := by
          rw [Multiset.coe_card, List.length_take, List.length_drop]
          omega
        have hsa : msRange a alo ahi =
            msRange a alo i + msRange a i (i + k) + msRange a (i + k) ahi := by
          rw [msRange_split a alo i ahi h2 (by omega),
            msRange_split a i (i + k) ahi (by omega) h3]
          exact (add_assoc _ _ _).symm
        have hsb : msRange b blo bhi =
            msRange b blo j + msRange b j (j + k) + msRange b (j + k) bhi := by
          rw [msRange_split b blo j bhi h4 (by omega),
            msRange_split b j (j + k) bhi (by omega) h5]
          exact (add_assoc _ _ _).symm
        have hiha := matchingTotalF_le_inter a b junk fuel alo i blo j
        have hihb := matchingTotalF_le_inter a b junk fuel (i + k) ahi (j + k) bhi
        have step1 :
            Multiset.card (msRange a alo i ∩ msRange b blo j) + k ≤
            Multiset.card ((msRange a alo i + msRange a i (i + k)) ∩
              (msRange b blo j + msRange b j (j + k))) := by
          have hsup := inter_superadd (msRange a alo i) (msRange a i (i + k))
            (msRange b blo j) (msRange b j (j + k))
          have hBD : msRange a i (i + k) ∩ msRange b j (j + k) =
              msRange a i (i + k) := by
            rw [hBa, hBb, ← hblock]
            exact inter_self_card _
          have hcB : Multiset.card (msRange a i (i + k)) = k := by
            rw [hBa]
            exact hcardB
          rw [hBD, hcB] at hsup
          exact hsup
        have step2 :
            Multiset.card ((msRange a alo i + msRange a i (i + k)) ∩
              (msRange b blo j + msRange b j (j + k))) +
            Multiset.card (msRange a (i + k) ahi ∩ msRange b (j + k) bhi) ≤
            Multiset.card (msRange a alo ahi ∩ msRange b blo bhi) := by
          rw [hsa, hsb]
          exact inter_superadd _ _ _ _
        omega

/-! ### Ratio bounds: `ratio <= quick_ratio <= ...` and `ratio <= real_quick_ratio` -/

theorem calcRatio_mono {m m' T : Nat} (h : m ≤ m') :
    calcRatio m T ≤ calcRatio m' T := by
  unfold calcRatio
  split
  · exact le_refl 1
  · rename_i hT
    have hT' : (0 : ℚ) < (T : ℚ) :=
      Nat.cast_pos.mpr (Nat.pos_of_ne_zero hT)
    refine (div_le_div_iff_of_pos_right hT').mpr ?_
    have : (m : ℚ) ≤ (m' : ℚ) := Nat.cast_le.mpr h
    linarith

theorem ratio_le_quickRatio (a b : List Char) : ratio a b ≤ quickRatio a b := by
  apply calcRatio_mono
  have h := matchingTotalF_le_inter a b (bjunk b)
    (a.length + b.length) 0 a.length 0 b.length
  rw [msRange_full, msRange_full] at h
  exact h

theorem ratio_le_realQuickRatio (a b : List Char) :
    ratio a b ≤ realQuickRatio a b := by
  apply calcRatio_mono
  have h1 := matchingTotalF_le_left a b (bjunk b)
    (a.length + b.length) 0 a.length 0 b.length
  have h2 := matchingTotalF_le_right a b (bjunk b)
    (a.length + b.length) 0 a.length 0 b.length
  unfold matchingTotal
  omega

/-! ### get_close_matches lemmas -/

theorem pairLt_irrefl (p : ℚ × String) : ¬ pairLt p p := by
  rintro (h | ⟨-, h⟩)
  · exact lt_irrefl _ h
  · exact lt_irrefl _ h

theorem foldl_max_mem :
    ∀ (ps : List (ℚ × String)) (m : ℚ × String),
      ps.foldl (fun m q => if pairLt m q then q else m) m = m ∨
      ps.foldl (fun m q => if pairLt m q then q else m) m ∈ ps
  | [], m => Or.inl rfl
  | q :: ps, m => by
    rw [List.foldl_cons]
    by_cases h : pairLt m q
    · rw [if_pos h]
      rcases foldl_max_mem ps q with h' | h'
      · right
        rw [h']
        exact List.mem_cons_self _ _
      · exact Or.inr (List.mem_cons_of_mem _ h')
    · rw [if_neg h]
      rcases foldl_max_mem ps m with h' | h'
      · exact Or.inl h'
      · exact Or.inr (List.mem_cons_of_mem _ h')

theorem maxPair?_mem {l : List (ℚ × String)} {p : ℚ × String}
    (h : maxPair? l = some p) : p ∈ l := by
  cases l with
  | nil => cases h
  | cons q qs =>
    rw [maxPair?] at h
    injection h with h
    rcases foldl_max_mem qs q with h' | h'
    · rw [← h, h']
      exact List.mem_cons_self _ _
    · rw [← h]
      exact List.mem_cons_of_mem _ h'

theorem foldl_max_eq (tgt : ℚ × String) :
    ∀ (ps : List (ℚ × String)) (m : ℚ × String),
      (m = tgt ∨ m.1 < tgt.1) →
      (∀ p ∈ ps, p = tgt ∨ p.1 < tgt.1) →
      (tgt ∈ ps ∨ m = tgt) →
      ps.foldl (fun m q => if pairLt m q then q else m) m = tgt
  | [], m, _, _, hin => by
    rcases hin with h | h
    · cases h
    · simpa using h
  | q :: ps, m, hm, hall, hin => by
    rw [List.foldl_cons]
    have hq := hall q (List.mem_cons_self _ _)
    have hall' : ∀ p ∈ ps, p = tgt ∨ p.1 < tgt.1 :=
      fun p hp => hall p (List.mem_cons_of_mem _ hp)
    have hstep : (if pairLt m q then q else m) = tgt ∨
        ((if pairLt m q then q else m).1 < tgt.1) := by
      split
      · exact hq
      · exact hm
    have hin' : tgt ∈ ps ∨ (if pairLt m q then q else m) = tgt := by
      rcases hin with h | h
      · rcases List.mem_cons.mp h with h' | h'
        · right
          rcases hm with hm | hm
          · rw [if_neg]
            · exact hm
            · rw [hm, ← h']
              exact pairLt_irrefl tgt
          · rw [if_pos]
            · exact h'.symm
            · left
              rw [h'] at hm
              exact hm
        · exact Or.inl h'
      · right
        rcases hq with hq | hq
        · rw [if_neg]
          · exact h
          · rw [h, hq]
            exact pairLt_irrefl tgt
        · rw [if_neg]
          · exact h
          · rintro (hlt | ⟨heq, -⟩)
            · rw [h] at hlt
              exact absurd hlt (not_lt.mpr (le_of_lt hq))
            · rw [h] at heq
              rw [heq] at hq
              exact lt_irrefl _ hq
    exact foldl_max_eq tgt ps _ hstep hall' hin'

theorem maxPair?_eq {l : List (ℚ × String)} {tgt : ℚ × String}
    (hall : ∀ p ∈ l, p = tgt ∨ p.1 < tgt.1) (hin : tgt ∈ l) :
    maxPair? l = some tgt := by
  cases l with
  | nil => cases hin
  | cons q qs =>
    rw [maxPair?]
    congr 1
    have hq := hall q (List.mem_cons_self _ _)
    have hall' : ∀ p ∈ qs, p = tgt ∨ p.1 < tgt.1 :=
      fun p hp => hall p (List.mem_cons_of_mem _ hp)
    rcases List.mem_cons.mp hin with h | h
    · exact foldl_max_eq tgt qs q (Or.inl h.symm) hall' (Or.inr h.symm)
    · rcases hq with hq | hq
      · exact foldl_max_eq tgt qs q (Or.inl hq) hall' (Or.inl h)
      · exact foldl_max_eq tgt qs q (Or.inr hq) hall' (Or.inl h)

theorem getCloseMatches1_empty {word : String} {poss : List String}
    {cutoff : ℚ}
    (h : ∀ x ∈ poss, ratio x.data word.data < cutoff) :
    getCloseMatches1 word poss cutoff = [] := by
  have hsc : poss.filterMap (scoreFilter cutoff word) = [] := by
    rw [List.filterMap_eq_nil_iff]
    intro x hx
    rw [scoreFilter, if_neg]
    rintro ⟨-, -, h3⟩
    exact absurd h3 (not_le.mpr (h x hx))
  rw [getCloseMatches1, hsc]
  rfl

theorem getCloseMatches1_mem {word : String} {poss : List String}
    {cutoff : ℚ} {c : String} {cs : List String}
    (h : getCloseMatches1 word poss cutoff = c :: cs) : c ∈ poss := by
  rw [getCloseMatches1] at h
  cases hmp : maxPair? (poss.filterMap (scoreFilter cutoff word)) with
  | none => rw [hmp] at h; cases h
  | some p =>
    rw [hmp] at h
    injection h with h1 h2
    obtain ⟨x, hx, hsf⟩ := List.mem_filterMap.mp (maxPair?_mem hmp)
    rw [scoreFilter] at hsf
    split at hsf
    · injection hsf with hsf
      rw [← h1, ← hsf]
      exact hx
    · cases hsf

theorem getCloseMatches1_best {word : String} {poss : List String}
    {cutoff : ℚ} {x : String}
    (hx : x ∈ poss) (hr : cutoff ≤ ratio x.data word.data)
    (hmax : ∀ y ∈ poss, y ≠ x →
      ratio y.data word.data < ratio x.data word.data) :
    getCloseMatches1 word poss cutoff = [x] := by
  have hpass : scoreFilter cutoff word x = some (ratio x.data word.data, x) := by
    rw [scoreFilter, if_pos]
    exact ⟨le_trans hr (ratio_le_realQuickRatio _ _),
      le_trans hr (ratio_le_quickRatio _ _), hr⟩
  have hin : (ratio x.data word.data, x) ∈
      poss.filterMap (scoreFilter cutoff word) :=
    List.mem_filterMap.mpr ⟨x, hx, hpass⟩
  have hall : ∀ p ∈ poss.filterMap (scoreFilter cutoff word),
      p = (ratio x.data word.data, x) ∨ p.1 < ratio x.data word.data := by
    intro p hp
    obtain ⟨y, hy, hsf⟩ := List.mem_filterMap.mp hp
    rw [scoreFilter] at hsf
    split at hsf
    · injection hsf with hsf
      by_cases hyx : y = x
      · subst hyx
        exact Or.inl hsf.symm
      · right
        rw [← hsf]
        exact hmax y hy hyx
    · cases hsf
  rw [getCloseMatches1, maxPair?_eq hall hin]

/-! ### dictGet lemmas -/

theorem dictGet_some_mem {β : Type} :
    ∀ {m : List (String × β)} {k : String} {v : β},
      dictGet m k = some v → (k, v) ∈ m
  | [], k, v, h => by cases h
  | (k', v') :: rest, k, v, h => by
    rw [dictGet] at h
    split at h
    · rename_i he
      injection h with h
      rw [← he, ← h]
      exact List.mem_cons_self _ _
    · exact List.mem_cons_of_mem _ (dictGet_some_mem h)

theorem dictGet_some_mem_keys {β : Type} {m : List (String × β)} {k : String}
    {v : β} (h : dictGet m k = some v) : k ∈ m.map Prod.fst := by
  have := dictGet_some_mem h
  exact List.mem_map.mpr ⟨(k, v), this, rfl⟩

theorem mem_keys_dictGet {β : Type} :
    ∀ {m : List (String × β)} {k : String},
      k ∈ m.map Prod.fst → ∃ v, dictGet m k = some v
  | [], k, h => by cases h
  | (k', v') :: rest, k, h => by
    rw [dictGet]
    by_cases he : k' = k
    · exact ⟨v', if_pos he⟩
    · rw [if_neg he]
      apply mem_keys_dictGet
      rcases List.mem_map.mp h with ⟨p, hp, hpk⟩
      rcases List.mem_cons.mp hp with h' | h'
      · exfalso
        apply he
        rw [h'] at hpk
        exact hpk
      · exact List.mem_map.mpr ⟨p, h', hpk⟩

/-! ### The resolver claims -/

theorem resolve_exact (nmap : List (String × List String)) (q : String)
    (vs : List String) (h : dictGet nmap (norm q) = some vs) :
    resolve nmap q = vs := by
  show (match dictGet nmap (norm q) with
    | some vs => vs
    | none =>
      match getCloseMatches1 (norm q) (nmap.map Prod.fst) CUTOFF with
      | [] => []
      | c :: _ => (dictGet nmap c).getD []) = vs
  rw [h]

/-- **C1** — Exact-match resolution: whenever the normalized query is a key
of the Name Map, the resolver returns exactly the raw-name list stored
under that key. -/
theorem claim_C1 (nmap : List (String × List String)) (q : String)
    (vs : List String) (h : dictGet nmap (norm q) = some vs) :
    resolve nmap q = vs :=
  resolve_exact nmap q vs h

/-- Witness for C1: with the raw name 합정 stored under the key 합정,
querying 합정 returns a list containing 합정. -/
theorem claim_C1_witness :
    dictGet [("합정", ["합정"])] (norm "합정") = some ["합정"] ∧
    resolve [("합정", ["합정"])] "합정" = ["합정"] ∧
    "합정" ∈ (["합정"] : List String) :=
  ⟨by decide, claim_C1 [("합정", ["합정"])] "합정" ["합정"] (by decide),
    by decide⟩

/-- **C2** — Fuzzy fallback: when the normalized query is not a key, the
resolver returns the empty list if every key scores below the 0.4 cutoff,
and returns the stored raw-name list of the single closest key (strictly
best sequence-similarity ratio) when that key reaches the cutoff. -/
theorem claim_C2 (nmap : List (String × List String)) (q : String)
    (hmiss : dictGet nmap (norm q) = none) :
    ((∀ k ∈ nmap.map Prod.fst, ratio k.data (norm q).data < CUTOFF) →
      resolve nmap q = []) ∧
    (∀ k vs, dictGet nmap k = some vs →
      CUTOFF ≤ ratio k.data (norm q).data →
      (∀ k' ∈ nmap.map Prod.fst, k' ≠ k →
        ratio k'.data (norm q).data < ratio k.data (norm q).data) →
      resolve nmap q = vs) := by
  constructor
  · intro hall
    show (match dictGet nmap (norm q) with
      | some vs => vs
      | none =>
        match getCloseMatches1 (norm q) (nmap.map Prod.fst) CUTOFF with
        | [] => []
        | c :: _ => (dictGet nmap c).getD []) = []
    rw [hmiss, getCloseMatches1_empty hall]
  · intro k vs hk hr hmax
    show (match dictGet nmap (norm q) with
      | some vs => vs
      | none =>
        match getCloseMatches1 (norm q) (nmap.map Prod.fst) CUTOFF with
        | [] => []
        | c :: _ => (dictGet nmap c).getD []) = vs
    rw [hmiss,
      getCloseMatches1_best (dictGet_some_mem_keys hk) hr hmax]
    show (dictGet nmap k).getD [] = vs
    rw [hk]
    rfl

/-- Witness for C2: both branches at a concrete two-key map; the query
"ac" is no key, matches "ab" with ratio 1/2 ≥ 0.4, and the query "zz"
scores below 0.4 against every key. -/
theorem claim_C2_witness :
    dictGet [("ab", ["x"]), ("qq", ["y"])] (norm "ac") = none ∧
    resolve [("ab", ["x"]), ("qq", ["y"])] "ac" = ["x"] ∧
    dictGet [("ab", ["x"]), ("qq", ["y"])] (norm "zz") = none ∧
    resolve [("ab", ["x"]), ("qq", ["y"])] "zz" = [] := by
  have h1 : norm "ac" = "ac" := by decide
  have h2 : norm "zz" = "zz" := by decide
  have hkeys : ([("ab", ["x"]), ("qq", ["y"])] :
      List (String × List String)).map Prod.fst = ["ab", "qq"] := rfl
  have hrab : ratio "ab".data "ac".data = 1 / 2 := by
    show calcRatio (matchingTotal "ab".data "ac".data) 4 = 1 / 2
    have hm : matchingTotal "ab".data "ac".data = 1 := by decide
    rw [hm]
    simp only [calcRatio]
    norm_num
  have hrqq : ratio "qq".data "ac".data = 0 := by
    show calcRatio (matchingTotal "qq".data "ac".data) 4 = 0
    have hm : matchingTotal "qq".data "ac".data = 0 := by decide
    rw [hm]
    simp only [calcRatio]
    norm_num
  have hrabz : ratio "ab".data "zz".data = 0 := by
    show calcRatio (matchingTotal "ab".data "zz".data) 4 = 0
    have hm : matchingTotal "ab".data "zz".data = 0 := by decide
    rw [hm]
    simp only [calcRatio]
    norm_num
  have hrqqz : ratio "qq".data "zz".data = 0 := by
    show calcRatio (matchingTotal "qq".data "zz".data) 4 = 0
    have hm : matchingTotal "qq".data "zz".data = 0 := by decide
    rw [hm]
    simp only [calcRatio]
    norm_num
  refine ⟨by decide, ?_, by decide, ?_⟩
  · apply (claim_C2 [("ab", ["x"]), ("qq", ["y"])] "ac" (by decide)).2
      "ab" ["x"] (by decide)
    · rw [h1, hrab]
      norm_num [CUTOFF]
    · intro k' hk' hne
      rw [hkeys] at hk'
      rcases List.mem_cons.mp hk' with h | h
      · exact absurd h hne
      · rcases List.mem_cons.mp h with h | h
        · subst h
          rw [h1, hrqq, hrab]
          norm_num
        · cases h
  · apply (claim_C2 [("ab", ["x"]), ("qq", ["y"])] "zz" (by decide)).1
    intro k hk
    rw [hkeys] at hk
    rcases List.mem_cons.mp hk with h | h
    · subst h
      rw [h2, hrabz]
      norm_num [CUTOFF]
    · rcases List.mem_cons.mp h with h | h
      · subst h
        rw [h2, hrqqz]
        norm_num [CUTOFF]
      · cases h

/-! ### build_map bucket structure (claim C10) -/

theorem addRaw_vals_nonempty {m : List (String × List String)} {r : String}
    (hm : ∀ p ∈ m, p.2 ≠ []) : ∀ p ∈ addRaw m r, p.2 ≠ [] := by
  induction m with
  | nil =>
    intro p hp
    simp only [addRaw, List.mem_singleton] at hp
    subst hp
    simp
  | cons q rest ih =>
    obtain ⟨k, vs⟩ := q
    intro p hp
    rw [addRaw] at hp
    split at hp
    · rcases List.mem_cons.mp hp with h | h
      · subst h
        simp
      · exact hm p (List.mem_cons_of_mem _ h)
    · rcases List.mem_cons.mp hp with h | h
      · subst h
        exact hm (k, vs) (List.mem_cons_self _ _)
      · exact ih (fun p hp => hm p (List.mem_cons_of_mem _ hp)) p h

theorem build_map_vals_nonempty {raw : List String} :
    ∀ p ∈ build_map raw, p.2 ≠ [] := by
  suffices h : ∀ (m : List (String × List String)), (∀ p ∈ m, p.2 ≠ []) →
      ∀ p ∈ raw.foldl addRaw m, p.2 ≠ [] by
    exact h [] (by simp)
  induction raw with
  | nil => intro m hm; simpa using hm
  | cons r rest ih =>
    intro m hm
    exact ih (addRaw m r) (addRaw_vals_nonempty hm)

theorem count_singleton_eq (x r : String) :
    List.count x [r] = if x = r then 1 else 0 := by
  by_cases h : x = r
  · subst h
    rw [if_pos rfl]
    simp
  · rw [if_neg h, List.count_eq_zero]
    simp [h]

theorem addRaw_flat_count (x r : String) :
    ∀ (m : List (String × List String)),
      ((addRaw m r).flatMap Prod.snd).count x =
        (m.flatMap Prod.snd).count x + if x = r then 1 else 0
  | [] => by
    show (([(norm r, [r])] : List (String × List String)).flatMap
        Prod.snd).count x =
      (([] : List (String × List String)).flatMap Prod.snd).count x +
        if x = r then 1 else 0
    simp only [List.flatMap_cons, List.flatMap_nil, List.append_nil]
    rw [count_singleton_eq]
    simp
  | (k, vs) :: rest => by
    rw [addRaw]
    split
    · simp only [List.flatMap_cons]
      rw [List.count_append, List.count_append, List.count_append,
        count_singleton_eq]
      omega
    · simp only [List.flatMap_cons]
      rw [List.count_append, List.count_append, addRaw_flat_count x r rest]
      omega

theorem build_map_flat_count (x : String) (raw : List String) :
    ((build_map raw).flatMap Prod.snd).count x = raw.count x := by
  suffices h : ∀ (m : List (String × List String)),
      (((raw.foldl addRaw m)).flatMap Prod.snd).count x =
        (m.flatMap Prod.snd).count x + raw.count x by
    simpa using h []
  induction raw with
  | nil => intro m; simp
  | cons r rest ih =>
    intro m
    rw [List.foldl_cons, ih (addRaw m r), addRaw_flat_count]
    have hc : (r :: rest).count x = rest.count x + if x = r then 1 else 0 := by
      rw [List.count_cons]
      by_cases h : x = r
      · rw [if_pos h, if_pos (beq_iff_eq.mpr h.symm)]
      · rw [if_neg h, if_neg
          (by simp only [beq_iff_eq]; exact fun e => h e.symm)]
    rw [hc]
    omega

/-- **C10** — In the built Name Map every bucket is non-empty, every raw
name of the (duplicate-free) collected set appears in exactly one bucket
position overall, and whenever the resolver settles on a key — exactly or
fuzzily — the returned list is non-empty (an empty result means no key was
selected). -/
theorem claim_C10 (raw : List String) (hnd : raw.Nodup) :
    (∀ p ∈ build_map raw, p.2 ≠ []) ∧
    (∀ r ∈ raw, ((build_map raw).flatMap Prod.snd).count r = 1) ∧
    (∀ q : String, resolve (build_map raw) q = [] →
      dictGet (build_map raw) (norm q) = none ∧
      getCloseMatches1 (norm q) ((build_map raw).map Prod.fst) CUTOFF = []) := by
  refine ⟨build_map_vals_nonempty, ?_, ?_⟩
  · intro r hr
    rw [build_map_flat_count]
    exact List.count_eq_one_of_mem hnd hr
  · intro q hres
    cases hdg : dictGet (build_map raw) (norm q) with
    | some vs =>
      exfalso
      rw [resolve_exact (build_map raw) q vs hdg] at hres
      exact build_map_vals_nonempty _ (dictGet_some_mem hdg) hres
    | none =>
      refine ⟨rfl, ?_⟩
      cases hg : getCloseMatches1 (norm q) ((build_map raw).map Prod.fst)
        CUTOFF with
      | nil => rfl
      | cons c cs =>
        exfalso
        have hc : c ∈ (build_map raw).map Prod.fst := getCloseMatches1_mem hg
        obtain ⟨vs, hvs⟩ := mem_keys_dictGet hc
        have : resolve (build_map raw) q = vs := by
          show (match dictGet (build_map raw) (norm q) with
            | some vs => vs
            | none =>
              match getCloseMatches1 (norm q)
                  ((build_map raw).map Prod.fst) CUTOFF with
              | [] => []
              | c :: _ => (dictGet (build_map raw) c).getD []) = vs
          rw [hdg, hg]
          show (dictGet (build_map raw) c).getD [] = vs
          rw [hvs]
          rfl
        rw [this] at hres
        exact build_map_vals_nonempty _ (dictGet_some_mem hvs) hres

/-- Witness for C10 at the concrete collected set `["합정역", "합정"]`. -/
theorem claim_C10_witness :
    (["합정역", "합정"] : List String).Nodup ∧
    ((∀ p ∈ build_map ["합정역", "합정"], p.2 ≠ []) ∧
     (∀ r ∈ (["합정역", "합정"] : List String),
        ((build_map ["합정역", "합정"]).flatMap Prod.snd).count r = 1) ∧
     (∀ q : String, resolve (build_map ["합정역", "합정"]) q = [] →
        dictGet (build_map ["합정역", "합정"]) (norm q) = none ∧
        getCloseMatches1 (norm q)
          ((build_map ["합정역", "합정"]).map Prod.fst) CUTOFF = [])) :=
  ⟨by decide, claim_C10 ["합정역", "합정"] (by decide)⟩

/-! ## Fetcher pagination (src/main.py lines 32-39)

`fetch_xml_full` first requests rows `[1,1]` (to learn the declared
total), then runs `for start in range(2, total+1, chunk)` requesting
`[start, min(start+chunk-1, total)]`.  The `range` iteration is embedded
as a recursion on `start` guarded by `start ≤ total`, with fuel `total`,
which dominates the iteration count whenever `chunk ≥ 1` (each step adds
`chunk ≥ 1` to a start that begins at 2). -/

def pagesFromF (total chunk : Nat) : Nat → Nat → List (Nat × Nat)
  | 0, _ => []
  | fuel + 1, s =>
    if s ≤ total then
      (s, min (s + chunk - 1) total) :: pagesFromF total chunk fuel (s + chunk)
    else []

/-- All row ranges requested by one `fetch_xml_full(endpoint, chunk)`
call, in request order. -/
def pageRanges (total chunk : Nat) : List (Nat × Nat) :=
  (1, 1) :: pagesFromF total chunk total 2

/-- The row indices of one inclusive request range. -/
def rangeRows (p : Nat × Nat) : List Nat := List.range' p.1 (p.2 + 1 - p.1)

/-- The row indices delivered over all requests, assuming each request
returns exactly the rows of its range. -/
def pageRows (total chunk : Nat) : List Nat :=
  (pageRanges total chunk).flatMap rangeRows

theorem pagesFromF_rows {total chunk : Nat} (hc : 1 ≤ chunk) :
    ∀ (fuel s : Nat), 1 ≤ s → total + 1 - s ≤ fuel →
      (pagesFromF total chunk fuel s).flatMap rangeRows =
        List.range' s (total + 1 - s)
  | 0, s, hs, hf => by
    rw [pagesFromF]
    have he : total + 1 - s = 0 := by omega
    rw [he]
    rfl
  | fuel + 1, s, hs, hf => by
    rw [pagesFromF]
    by_cases h : s ≤ total
    · rw [if_pos h, List.flatMap_cons,
        pagesFromF_rows hc fuel (s + chunk) (by omega) (by omega)]
      show List.range' s (min (s + chunk - 1) total + 1 - s) ++
          List.range' (s + chunk) (total + 1 - (s + chunk)) =
        List.range' s (total + 1 - s)
      by_cases h2 : s + chunk - 1 ≤ total
      · rw [min_eq_left h2]
        have e1 : s + chunk - 1 + 1 - s = chunk := by omega
        rw [e1]
        have hap := List.range'_append s chunk (total + 1 - (s + chunk)) 1
        rw [one_mul] at hap
        have e2 : total + 1 - s = total + 1 - (s + chunk) + chunk := by omega
        rw [e2]
        exact hap
      · rw [min_eq_right (by omega)]
        have e2 : total + 1 - (s + chunk) = 0 := by omega
        rw [e2]
        show List.range' s (total + 1 - s) ++ [] = List.range' s (total + 1 - s)
        rw [List.append_nil]
    · rw [if_neg h]
      have he : total + 1 - s = 0 := by omega
      rw [he]
      rfl

/-- **C6 (amended: declared total ≥ 1)** — For every total ≥ 1 and page
size ≥ 1 the requested ranges `[1,1], [2, min(1+chunk, total)], …` cover
exactly the rows 1..total: the flattened request rows are precisely
`1, …, total` in order, each row appears in exactly one range (the ranges
are pairwise disjoint), and the concatenated table has exactly `total`
rows. -/
theorem claim_C6 (total chunk : Nat) (hc : 1 ≤ chunk) (ht : 1 ≤ total) :
    pageRows total chunk = List.range' 1 total ∧
    (∀ n, n ∈ pageRows total chunk ↔ 1 ≤ n ∧ n ≤ total) ∧
    (pageRows total chunk).length = total ∧
    List.Pairwise (fun p q => List.Disjoint (rangeRows p) (rangeRows q))
      (pageRanges total chunk) := by
  have heq : pageRows total chunk = List.range' 1 total := by
    show rangeRows (1, 1) ++
        (pagesFromF total chunk total 2).flatMap rangeRows =
      List.range' 1 total
    rw [pagesFromF_rows hc total 2 (by omega) (by omega)]
    show List.range' 1 1 ++ List.range' 2 (total + 1 - 2) =
      List.range' 1 total
    have hap := List.range'_append 1 1 (total + 1 - 2) 1
    rw [one_mul] at hap
    have e : total = total + 1 - 2 + 1 := by omega
    rw [e]
    exact hap
  refine ⟨heq, ?_, ?_, ?_⟩
  · intro n
    rw [heq, List.mem_range'_1]
    omega
  · rw [heq, List.length_range']
  · have hnd : (pageRows total chunk).Nodup := by
      rw [heq]
      exact List.nodup_range' 1 total
    rw [pageRows, List.flatMap_def] at hnd
    have := (List.nodup_flatten.mp hnd).2
    exact List.pairwise_map.mp this

/-- **C6 counterexample** — At declared total 0 the probe request `[1,1]`
is still issued, so the requested ranges cover the row set `{1}` and not
the empty range `1..0`: the claim fails for `total = 0`. -/
theorem claim_C6_counterexample :
    pageRanges 0 999 = [(1, 1)] ∧ pageRows 0 999 = [1] ∧
    List.range' 1 0 = [] ∧ pageRows 0 999 ≠ List.range' 1 0 := by
  refine ⟨by decide, by decide, rfl, by decide⟩

/-- Witness for (amended) C6 at total 5, chunk 2: ranges
[1,1], [2,3], [4,5]. -/
theorem claim_C6_witness :
    (1 ≤ 2 ∧ 1 ≤ 5) ∧ pageRows 5 2 = List.range' 1 5 :=
  ⟨⟨by decide, by decide⟩, (claim_C6 5 2 (by decide) (by decide)).1⟩

/-! ## Length rendering (src/main.py lines 117-120)

`out["PLF_PBADMS"].apply(lambda v: f"{int(v)//1000} m" if str(v).isdigit()
else "-")`.  `str.isdigit` accepts every character with the Unicode digit
property: the decimal (Nd) digits, which `int()` parses, and the
non-decimal digit characters (superscripts, circled digits, ...), which
`int()` rejects with ValueError.  Both character classes are embedded in
full from the Unicode tables of the CPython runtime: the decimal digits
form aligned runs `start..start+9` carrying the values `0..9`, and the
remaining digit-property characters form the ranges below. -/

/-- Start code points of the runs of ten Unicode decimal (Nd) digits:
each run `s..s+9` holds the digits of value `0..9`. -/
def ndRunStarts : List Nat :=
  [48, 1632, 1776, 1984, 2406, 2534, 2662, 2790, 2918, 3046,
   3174, 3302, 3430, 3558, 3664, 3792, 3872, 4160, 4240, 6112,
   6160, 6470, 6608, 6784, 6800, 6992, 7088, 7232, 7248, 42528,
   43216, 43264, 43472, 43504, 43600, 44016, 65296, 66720, 68912, 69734,
   69872, 69942, 70096, 70384, 70736, 70864, 71248, 71360, 71472, 71904,
   72016, 72784, 73040, 73120, 92768, 92864, 93008, 120782, 120792, 120802,
   120812, 120822, 123200, 123632, 125264, 130032]

/-- Code-point ranges (inclusive) of the characters with the Unicode
digit property that are not decimal digits: accepted by `str.isdigit`
but rejected by `int()`. -/
def digitOnlyRanges : List (Nat × Nat) :=
  [(178, 179), (185, 185), (4969, 4977), (6618, 6618), (8304, 8304),
   (8308, 8313), (8320, 8329), (9312, 9320), (9332, 9340), (9352, 9360),
   (9450, 9450), (9461, 9469), (9471, 9471), (10102, 10110), (10112, 10120),
   (10122, 10130), (68160, 68163), (69216, 69224), (69714, 69722), (127232, 127242)]

/-- The decimal value of a character accepted by `int()` (a Unicode
decimal digit). -/
def pyDigitVal? (c : Char) : Option Nat :=
  match ndRunStarts.find? (fun s => decide (s ≤ c.toNat) &&
      decide (c.toNat ≤ s + 9)) with
  | some s => some (c.toNat - s)
  | none => none

/-- `str.isdigit` on one character: the decimal digits plus the
non-decimal Unicode digit characters. -/
def pyIsDigitChar (c : Char) : Bool :=
  (pyDigitVal? c).isSome ||
  digitOnlyRanges.any (fun p => decide (p.1 ≤ c.toNat) &&
    decide (c.toNat ≤ p.2))

/-- `str(v).isdigit()`: non-empty and all digit characters. -/
def pyStrIsdigit (s : String) : Bool :=
  !s.data.isEmpty && s.data.all pyIsDigitChar

/-- `int(v)` on a string of digit-property characters, the only strings
the guard lets through (no sign, whitespace or underscore forms can pass
`str.isdigit`): the base-10 value when every character is a decimal
digit, `none` (ValueError) otherwise. -/
def pyInt? (s : String) : Option Nat :=
  if s.data ≠ [] ∧ s.data.all (fun c => (pyDigitVal? c).isSome)
  then some (s.data.foldl (fun acc c => acc * 10 + (pyDigitVal? c).getD 0) 0)
  else none

/-- One application of the length-rendering lambda; `none` embeds an
uncaught exception. -/
def renderLength (v : String) : Option String :=
  if pyStrIsdigit v then
    (pyInt? v).map (fun n => toString (n / 1000) ++ " m")
  else some "-"

/-- **C7 (amended)** — A value that is not all digit characters renders as
the placeholder "-"; a decimal-digit value `v` renders as
`str(int(v)//1000) + " m"`; and the derivation raises (only) on strings
of digit-property characters containing a non-decimal digit such as "²" —
so it never raises on decimal or non-digit values, but the claim's "never
raises for any value" is too strong. -/
theorem claim_C7 (v : String) :
    (pyStrIsdigit v = false → renderLength v = some "-") ∧
    (∀ n, pyInt? v = some n →
      renderLength v = some (toString (n / 1000) ++ " m")) ∧
    (renderLength v = none ↔
      pyStrIsdigit v = true ∧ ∃ c ∈ v.data, pyDigitVal? c = none) := by
  refine ⟨?_, ?_, ?_⟩
  · intro h
    rw [renderLength, if_neg]
    rw [h]
    exact Bool.false_ne_true
  · intro n hn
    have hdig : pyStrIsdigit v = true := by
      rw [pyInt?] at hn
      split at hn
      · rename_i hcond
        rw [pyStrIsdigit, Bool.and_eq_true]
        constructor
        · cases hv : v.data with
          | nil => exact absurd hv hcond.1
          | cons c cs => simp [hv]
        · rw [List.all_eq_true]
          intro c hc
          have hI := List.all_eq_true.mp hcond.2 c hc
          rw [pyIsDigitChar, Bool.or_eq_true]
          exact Or.inl hI
      · cases hn
    rw [renderLength, if_pos hdig, hn]
    rfl
  · constructor
    · intro h
      rw [renderLength] at h
      split at h
      · rename_i hdig
        refine ⟨hdig, ?_⟩
        rw [Option.map_eq_none'] at h
        rw [pyInt?] at h
        split at h
        · cases h
        · rename_i hcond
          push_neg at hcond
          by_cases hv : v.data = []
          · exfalso
            rw [pyStrIsdigit, hv] at hdig
            simp at hdig
          · have hne := hcond hv
            have h2 : ¬ ∀ c ∈ v.data, (pyDigitVal? c).isSome = true :=
              fun hall => hne (List.all_eq_true.mpr hall)
            push_neg at h2
            obtain ⟨c, hc, hcd⟩ := h2
            exact ⟨c, hc, Option.not_isSome_iff_eq_none.mp hcd⟩
      · cases h
    · rintro ⟨hdig, c, hc, hcd⟩
      rw [renderLength, if_pos hdig]
      have : pyInt? v = none := by
        rw [pyInt?, if_neg]
        rintro ⟨-, hall⟩
        have := List.all_eq_true.mp hall c hc
        rw [hcd] at this
        cases this
      rw [this]
      rfl

/-- **C7 counterexample** — The superscript "²" and the circled digit "①"
satisfy `str.isdigit` but `int()` raises ValueError on them, so the
derivation is not exception-free on every value. -/
theorem claim_C7_counterexample :
    pyStrIsdigit "²" = true ∧ pyInt? "²" = none ∧
    renderLength "²" = none ∧
    pyStrIsdigit "①" = true ∧ pyInt? "①" = none ∧
    renderLength "①" = none := by
  refine ⟨by decide, by decide, by decide, by decide, by decide, by decide⟩

/-- Witness for (amended) C7: "15000" renders as "15 m", and the
Arabic-Indic decimal digit "٣" (value 3) takes the numeric branch and
renders as "0 m". -/
theorem claim_C7_witness :
    pyInt? "15000" = some 15000 ∧
    renderLength "15000" = some (toString ((15000 : Nat) / 1000) ++ " m") ∧
    toString ((15000 : Nat) / 1000) ++ " m" = "15 m" ∧
    pyInt? "٣" = some 3 ∧
    renderLength "٣" = some (toString ((3 : Nat) / 1000) ++ " m") ∧
    toString ((3 : Nat) / 1000) ++ " m" = "0 m" :=
  ⟨by decide, (claim_C7 "15000").2.1 15000 (by decide), by decide,
    by decide, (claim_C7 "٣").2.1 3 (by decide), by decide⟩

/-! ## Amenity rendering (src/main.py lines 129-134) -/

/-- The ten fixed amenity codes and their labels, in source order. -/
def fmap : List (String × String) :=
  [("EL", "엘리베이터"), ("WL", "휠체어리프트"), ("PARKING", "주차장"),
   ("BICYCLE", "자전거보관소"), ("CIM", "무인민원발급기"),
   ("EXCHANGE", "환전소"), ("TRAIN", "열차매표"), ("CULTURE", "문화공간"),
   ("PLACE", "유휴공간"), ("FDROOM", "수유실")]

/-- `[v for k, v in fmap.items() if row.get(k) == "Y"]` on one row
(`row.get` of an absent code is None, which is not "Y"). -/
def availFrom (row : List (String × String)) : List String :=
  (fmap.filter (fun p =>
    match dictGet row p.1 with
    | some v => decide (v = "Y")
    | none => false)).map Prod.snd

/-- The amenity section inspects only the first matching row
(`row = show_v.iloc[0]`); with no matching row the section shows an info
notice instead (`none`). -/
def amenityAvail (rows : List (List (String × String))) :
    Option (List String) :=
  match rows with
  | [] => none
  | r :: _ => some (availFrom r)

/-- **C8** — Only the first matching amenity row is inspected (the result
on `r :: rest` ignores `rest`), the available list holds exactly the
labels of the fixed codes whose value in that row is "Y" (absent codes
count as not present), and a row with EL="Y", WL="N" and all other codes
absent yields exactly the elevator label. -/
theorem claim_C8 :
    (∀ (r : List (String × String)) (rest : List (List (String × String))),
      amenityAvail (r :: rest) = some (availFrom r)) ∧
    (∀ (row : List (String × String)) (lbl : String),
      lbl ∈ availFrom row ↔
        ∃ code, (code, lbl) ∈ fmap ∧ dictGet row code = some "Y") ∧
    availFrom [("EL", "Y"), ("WL", "N")] = ["엘리베이터"] := by
  refine ⟨fun r rest => rfl, ?_, by decide⟩
  intro row lbl
  constructor
  · intro h
    obtain ⟨p, hp, hpl⟩ := List.mem_map.mp h
    obtain ⟨hpf, hq⟩ := List.mem_filter.mp hp
    refine ⟨p.1, ?_, ?_⟩
    · have : p = (p.1, lbl) := by
        rw [← hpl]
      rw [← this]
      exact hpf
    · revert hq
      cases hd : dictGet row p.1 with
      | none => intro hq; cases hq
      | some v =>
        intro hq
        have : v = "Y" := of_decide_eq_true hq
        rw [this]
  · rintro ⟨code, hcf, hcy⟩
    apply List.mem_map.mpr
    refine ⟨(code, lbl), ?_, rfl⟩
    apply List.mem_filter.mpr
    refine ⟨hcf, ?_⟩
    show (match dictGet row code with
      | some v => decide (v = "Y")
      | none => false) = true
    rw [hcy]
    exact decide_eq_true rfl

/-! ## parse_xml (src/main.py lines 24-30)

`xmltodict.parse` output is embedded as a tree of strings, dicts and
lists; `parse_xml` reads the first (only) root element, the repeated
`row` element normalized to a list, and `int(p[root]["list_total_count"])`.
`none` embeds the uncaught exceptions (empty document, root not a dict,
missing or non-numeric total). -/

inductive XVal where
  | s (v : String)
  | dict (l : List (String × XVal))
  | list (l : List XVal)

/-- `rows = p[root].get("row", []); rows = [rows] if isinstance(rows, dict)
else rows`. -/
def normalizeRows (r : Option XVal) : XVal :=
  match r with
  | none => XVal.list []
  | some (XVal.dict d) => XVal.list [XVal.dict d]
  | some v => v

/-- `parse_xml(text)` after decoding, on the decoded top-level mapping. -/
def parse_xml (p : List (String × XVal)) : Option (XVal × Nat) :=
  match p with
  | (_, XVal.dict root) :: _ =>
    match dictGet root "list_total_count" with
    | some (XVal.s t) =>
      match pyInt? t with
      | some n => some (normalizeRows (dictGet root "row"), n)
      | none => none
    | _ => none
  | _ => none

/-- **C9** — Envelope decoding yields a list: a single non-repeated row
element (decoded as a dict) is wrapped into a one-element list, an absent
row element gives the empty list, a repeated row element passes through
as its list — in every case together with the declared total parsed as an
integer. -/
theorem claim_C9 (nm : String) (root tail : List (String × XVal))
    (t : String) (n : Nat)
    (htot : dictGet root "list_total_count" = some (XVal.s t))
    (hn : pyInt? t = some n) :
    (dictGet root "row" = none →
      parse_xml ((nm, XVal.dict root) :: tail) = some (XVal.list [], n)) ∧
    (∀ d, dictGet root "row" = some (XVal.dict d) →
      parse_xml ((nm, XVal.dict root) :: tail) =
        some (XVal.list [XVal.dict d], n)) ∧
    (∀ l, dictGet root "row" = some (XVal.list l) →
      parse_xml ((nm, XVal.dict root) :: tail) = some (XVal.list l, n)) := by
  have hbase : parse_xml ((nm, XVal.dict root) :: tail) =
      some (normalizeRows (dictGet root "row"), n) := by
    show (match dictGet root "list_total_count" with
      | some (XVal.s t) =>
        match pyInt? t with
        | some n => some (normalizeRows (dictGet root "row"), n)
        | none => none
      | _ => none) = some (normalizeRows (dictGet root "row"), n)
    rw [htot]
    show (match pyInt? t with
      | some n => some (normalizeRows (dictGet root "row"), n)
      | none => none) = some (normalizeRows (dictGet root "row"), n)
    rw [hn]
  refine ⟨?_, ?_, ?_⟩
  · intro h
    rw [hbase, h]
    rfl
  · intro d h
    rw [hbase, h]
    rfl
  · intro l h
    rw [hbase, h]
    rfl

/-- Witness for C9 on a concrete envelope with a single (dict) row. -/
theorem claim_C9_witness :
    dictGet [("list_total_count", XVal.s "2"),
      ("row", XVal.dict [("A", XVal.s "x")])] "list_total_count" =
      some (XVal.s "2") ∧
    pyInt? "2" = some 2 ∧
    parse_xml [("res", XVal.dict [("list_total_count", XVal.s "2"),
      ("row", XVal.dict [("A", XVal.s "x")])])] =
      some (XVal.list [XVal.dict [("A", XVal.s "x")]], 2) :=
  ⟨rfl, by decide,
    (claim_C9 "res"
      [("list_total_count", XVal.s "2"),
        ("row", XVal.dict [("A", XVal.s "x")])] [] "2" 2 rfl
      (by decide)).2.1 [("A", XVal.s "x")] rfl⟩

end SeoulMetro
